import Mathlib

/-!
# Verification of the duplicate-file detection engine

A shallow embedding of the `ftools dupes` command (`src/commands/duplicates.rs`)
together with the shared predicates it uses from `src/utils.rs`
(`should_skip`, `matches_extensions`) and the streaming hash entry point
(`hash_file_sha256`).

Modelling choices:
* A filesystem is a list of directory entries in `WalkDir` traversal order.
  Each entry carries the data that the syscalls of the run observe:
  whether it is a regular file or a directory, whether `metadata()` succeeds,
  the byte content (so `metadata.len()` is the content length — the run is
  modelled against an unchanged filesystem, matching the spec's explicit
  exclusion of mid-run races), whether the file can be opened and read to
  the end (`hash_file_sha256` returns `Ok`), and whether `fs::remove_file`
  succeeds.
* Paths are lists of components; the file name is the last component.
* The SHA-256 digest is abstracted as a function `d : List Nat → String`
  of the file's bytes: `hash_file_sha256` returns the digest of the content
  when the file is readable and an error otherwise.  Facts that depend on
  digests of different byte lengths never colliding take that as an explicit
  hypothesis on `d`.
* Rust `HashMap` accumulation via `entry(k).or_default().push(v)` followed by
  `into_iter()` is embedded as an association list keyed in first-insertion
  order; within every key the pushed order is preserved exactly as in the
  code, and none of the verified properties depends on the order of distinct
  keys.
* `u64`/`usize` arithmetic is carried out in `Nat`: the sums involved are
  counts and byte totals of files actually present on a filesystem, which
  cannot approach `2^64` in any run the tool supports.
* Unicode case-folding of `str::to_lowercase` is modelled by the ASCII
  case-folding `Char.toLower`; `str::trim`, `str::split` and
  `str::starts_with` are modelled by structurally recursive functions on the
  character lists (`trimChars`, `splitOnChar`, `strStartsWith`), so that every
  definition evaluates inside the kernel.
-/

/-- A path, as its list of components; the last component is the file name. -/
abbrev FPath := List String

/-- One entry yielded by the `WalkDir` traversal, carrying the outcomes of
every filesystem query the run performs on it. -/
structure Entry where
  path : FPath
  isFile : Bool
  isDir : Bool
  statOk : Bool
  content : List Nat
  readable : Bool
  removable : Bool
deriving Repr, DecidableEq

/-- `metadata.len()` of an entry of the (unchanged) filesystem. -/
def Entry.size (e : Entry) : Nat := e.content.length

/-- A filesystem: the entries in traversal order (entries whose walk step
errored are filtered out by `filter_map(|e| e.ok())` and simply absent). -/
structure FS where
  entries : List Entry
deriving Repr, DecidableEq

/-- `path.file_name().and_then(|n| n.to_str()).unwrap_or("")`. -/
def fileName (p : FPath) : String := p.getLast?.getD ""

/-- Position of the last dot in the list, if any. -/
def rposDot : List Char → Option Nat
  | [] => none
  | c :: rest =>
    match rposDot rest with
    | some i => some (i + 1)
    | none => if c = '.' then some 0 else none

/-- Rust `Path::extension` restricted to the file name: the suffix after the
last dot that is not in position 0, `none` for `".."`, for names without such
a dot, and for the empty name. -/
def extOf (name : String) : Option String :=
  if name = ".." then none
  else
    match rposDot (name.data.drop 1) with
    | none => none
    | some i => some (String.mk (name.data.drop (i + 2)))

/-- ASCII model of `str::to_lowercase`. -/
def asciiLower (s : String) : String := String.mk (s.data.map Char.toLower)

/-- `str::starts_with(pre)`. -/
def strStartsWith (s pre : String) : Bool := pre.data.isPrefixOf s.data

/-- `str::split(sep)`: the (possibly empty) pieces between occurrences of the
separator; splitting the empty string yields one empty piece, as in Rust. -/
def splitOnChar (sep : Char) : List Char → List (List Char)
  | [] => [[]]
  | c :: rest =>
    let r := splitOnChar sep rest
    if c = sep then [] :: r
    else
      match r with
      | [] => [[c]]
      | h :: t => (c :: h) :: t

/-- The whitespace trimmed by `str::trim` (the ASCII cases). -/
def isWs (c : Char) : Bool := c = ' ' || c = '\t' || c = '\n' || c = '\r'

/-- `str::trim`: strip whitespace from both ends. -/
def trimChars (l : List Char) : List Char :=
  ((l.dropWhile isWs).reverse.dropWhile isWs).reverse

/-- The fixed deny-list of `should_skip` in `src/utils.rs`. -/
def skip_dirs : List String :=
  ["node_modules", ".git", ".svn", ".hg", "__pycache__", ".cache",
   "target", ".idea", ".vscode", "vendor", "dist", "build"]

/-- `should_skip(path, include_hidden)` from `src/utils.rs`; `isDir` is the
result of the `path.is_dir()` query on the filesystem. -/
def should_skip (p : FPath) (isDir : Bool) (include_hidden : Bool) : Bool :=
  let name := fileName p
  if !include_hidden && strStartsWith name "." then true
  else if isDir && skip_dirs.contains name then true
  else false

/-- `matches_extensions(path, extensions)` from `src/utils.rs`. -/
def matches_extensions (p : FPath) (extensions : Option String) : Bool :=
  match extensions with
  | none => true
  | some exts =>
    let ext_list := (splitOnChar ',' exts.data).map trimChars
    match extOf (fileName p) with
    | some file_ext =>
      let file_ext_str := file_ext.data.map Char.toLower
      ext_list.any (fun e => e.map Char.toLower == file_ext_str)
    | none => false

/-- `hash_file_sha256(f).ok()` as used in the hashing step: the digest of the
file's bytes under `d` when the open/read loop succeeds, `none` on an
I/O error. -/
def hashFile (d : List Nat → String) (e : Entry) : Option String :=
  if e.readable then some (d e.content) else none

/-- Step 1 of `run`: the files pushed into `size_groups`, in traversal order.
An entry is recorded iff `path.is_file() && !should_skip(path, false)`,
its `metadata()` succeeds, `size >= min_size` and
`matches_extensions(path, &extensions)`. -/
def indexedFiles (fs : FS) (min_size : Nat) (exts : Option String) : List Entry :=
  fs.entries.filter (fun e =>
    e.isFile && !should_skip e.path e.isDir false && e.statOk
      && decide (min_size ≤ e.size) && matches_extensions e.path exts)

section Grouping

variable {α : Type} {κ : Type} [DecidableEq κ]

/-- `map.entry(k).or_default().push(v)` on an insertion-ordered association
list. -/
def groupInsert (m : List (κ × List α)) (k : κ) (v : α) : List (κ × List α) :=
  match m with
  | [] => [(k, [v])]
  | (k₀, vs) :: rest =>
    if k = k₀ then (k₀, vs ++ [v]) :: rest else (k₀, vs) :: groupInsert rest k v

/-- The list stored under key `k` (empty when the key is absent). -/
def findGroup (m : List (κ × List α)) (k : κ) : List α :=
  match m with
  | [] => []
  | (k₀, vs) :: rest => if k = k₀ then vs else findGroup rest k

/-- Group a list by a total key, in first-insertion key order. -/
def groupByKey (key : α → κ) (l : List α) : List (κ × List α) :=
  l.foldl (fun m a => groupInsert m (key a) a) []

end Grouping

/-- `size_groups` after step 1: records grouped by exact byte length. -/
def sizeGroupsOf (fs : FS) (min_size : Nat) (exts : Option String) :
    List (Nat × List Entry) :=
  groupByKey Entry.size (indexedFiles fs min_size exts)

/-- Step 2: `potential_dupes`, the size buckets with more than one member. -/
def potentialDupesOf (fs : FS) (min_size : Nat) (exts : Option String) :
    List (Nat × List Entry) :=
  (sizeGroupsOf fs min_size exts).filter (fun g => 1 < g.2.length)

/-- The files fed to the hashing stage, bucket by bucket
(`total_to_hash` counts exactly these). -/
def candidatesOf (fs : FS) (min_size : Nat) (exts : Option String) : List Entry :=
  (potentialDupesOf fs min_size exts).flatMap (fun g => g.2)

/-- Step 3: for each bucket, the parallel map produces the `(file, hash)`
pairs in bucket order, and the sequential loop pushes every successful hash
into `hash_groups`. -/
def hashGroupsOf (d : List Nat → String) (buckets : List (Nat × List Entry)) :
    List (String × List Entry) :=
  buckets.foldl
    (fun m g =>
      (g.2.map (fun f => (f, hashFile d f))).foldl
        (fun m fh =>
          match fh.2 with
          | some h => groupInsert m h fh.1
          | none => m)
        m)
    []

/-- Step 4: `duplicates`, the hash groups with more than one member. -/
def duplicatesOf (fs : FS) (d : List Nat → String) (min_size : Nat)
    (exts : Option String) : List (String × List Entry) :=
  (hashGroupsOf d (potentialDupesOf fs min_size exts)).filter
    (fun g => 1 < g.2.length)

/-- One group of the serialized report (`DuplicateGroup`). -/
structure DuplicateGroup where
  hash : String
  size : Nat
  files : List FPath
deriving Repr, DecidableEq

/-- The aggregate report (`DuplicateReport`); `wasted_space` and the per-group
`size` re-query `files.first().metadata()`, dropping the term when the
metadata call fails. -/
structure DuplicateReport where
  total_groups : Nat
  total_duplicates : Nat
  wasted_space : Nat
  groups : List DuplicateGroup
deriving Repr, DecidableEq

/-- `files.first().and_then(|f| f.metadata().ok()).map(|m| m.len()).unwrap_or(0)`. -/
def groupSizeField (files : List Entry) : Nat :=
  ((files.head?.bind (fun f => if f.statOk then some f.size else none)).getD 0)

/-- The statistics and report of steps 5–6, computed over `duplicates`. -/
def mkReport (dups : List (String × List Entry)) : DuplicateReport :=
  { total_groups := dups.length
  , total_duplicates := (dups.map (fun g => g.2.length - 1)).sum
  , wasted_space := (dups.map (fun g =>
      ((g.2.head?.bind (fun f =>
        if f.statOk then some (f.size * (g.2.length - 1)) else none)).getD 0))).sum
  , groups := dups.map (fun g =>
      { hash := g.1, size := groupSizeField g.2
      , files := g.2.map (fun f => f.path) }) }

/-- The running state of the deletion pass: the printed counters and the
files whose removal succeeded (each is printed as it is removed). -/
structure DeleteSummary where
  deleted_count : Nat
  freed_space : Nat
  deletedFiles : List Entry
deriving Repr, DecidableEq

/-- One iteration of the deletion loop body: `freed_space` grows whenever the
`metadata()` query succeeds — before the removal is attempted — and
`deleted_count` only when `fs::remove_file` returns `Ok`. -/
def delStep (acc : DeleteSummary) (f : Entry) : DeleteSummary :=
  let acc1 :=
    if f.statOk then { acc with freed_space := acc.freed_space + f.size } else acc
  if f.removable then
    { acc1 with
      deleted_count := acc1.deleted_count + 1
      deletedFiles := acc1.deletedFiles ++ [f] }
  else acc1

/-- The deletion pass: for every group, every member except the first
(`files.iter().skip(1)`) is attempted independently. -/
def deletePass (dups : List (String × List Entry)) : DeleteSummary :=
  dups.foldl (fun acc g => (g.2.drop 1).foldl delStep acc)
    { deleted_count := 0, freed_space := 0, deletedFiles := [] }

/-- The observable outcome of one `run` invocation. -/
structure RunResult where
  ok : Bool
  indexed : List Entry
  dups : List (String × List Entry)
  report : Option DuplicateReport
  exported : Bool
  deleteSummary : Option DeleteSummary
deriving Repr, DecidableEq

/-- `run(path, min_size, extensions, output, delete)` end to end.  `writeOk`
is the outcome of the `fs::write` of the JSON export; a failed export
propagates through `?` as the run's error, skipping the deletion stage. -/
def runModel (fs : FS) (d : List Nat → String) (min_size : Nat)
    (exts : Option String) (output : Option String) (delete : Bool)
    (writeOk : Bool) : RunResult :=
  let indexed := indexedFiles fs min_size exts
  let potential := potentialDupesOf fs min_size exts
  if potential.isEmpty then
    { ok := true, indexed := indexed, dups := [], report := none
    , exported := false, deleteSummary := none }
  else
    let dups := duplicatesOf fs d min_size exts
    if dups.isEmpty then
      { ok := true, indexed := indexed, dups := [], report := none
      , exported := false, deleteSummary := none }
    else
      let report := mkReport dups
      if output.isSome && !writeOk then
        { ok := false, indexed := indexed, dups := dups, report := some report
        , exported := false, deleteSummary := none }
      else
        { ok := true, indexed := indexed, dups := dups, report := some report
        , exported := output.isSome
        , deleteSummary := if delete then some (deletePass dups) else none }

/-! ## Association-list grouping lemmas -/

section GroupingLemmas

variable {α : Type} {κ : Type} [DecidableEq κ]

theorem findGroup_groupInsert (m : List (κ × List α)) (k k₀ : κ) (v : α) :
    findGroup (groupInsert m k₀ v) k
      = if k = k₀ then findGroup m k ++ [v] else findGroup m k := by
  induction m with
  | nil =>
    by_cases h : k = k₀ <;> simp [groupInsert, findGroup, h]
  | cons p rest ih =>
    obtain ⟨k₁, vs⟩ := p
    by_cases h₀ : k₀ = k₁
    · subst h₀
      by_cases h : k = k₀ <;> simp [groupInsert, findGroup, h]
    · by_cases h : k = k₁
      · subst h
        simp [groupInsert, findGroup, h₀, Ne.symm h₀]
      · simp [groupInsert, findGroup, h₀, h, ih]

theorem keys_groupInsert (m : List (κ × List α)) (k₀ : κ) (v : α) :
    (groupInsert m k₀ v).map Prod.fst
      = if k₀ ∈ m.map Prod.fst then m.map Prod.fst else m.map Prod.fst ++ [k₀] := by
  induction m with
  | nil => simp [groupInsert]
  | cons p rest ih =>
    obtain ⟨k₁, vs⟩ := p
    by_cases h₀ : k₀ = k₁
    · subst h₀; simp [groupInsert]
    · by_cases hm : k₀ ∈ rest.map Prod.fst
      · simp [groupInsert, h₀, ih, hm]
      · simp [groupInsert, h₀, ih, hm]

theorem keysNodup_groupInsert {m : List (κ × List α)} (k₀ : κ) (v : α)
    (h : (m.map Prod.fst).Nodup) : ((groupInsert m k₀ v).map Prod.fst).Nodup := by
  rw [keys_groupInsert]
  by_cases hm : k₀ ∈ m.map Prod.fst
  · simpa [hm] using h
  · rw [if_neg hm]
    refine List.Nodup.append h (List.nodup_singleton _) ?_
    simpa [List.disjoint_singleton] using hm

theorem findGroup_eq_of_mem {m : List (κ × List α)} {k : κ} {vs : List α}
    (hnd : (m.map Prod.fst).Nodup) (hmem : (k, vs) ∈ m) : findGroup m k = vs := by
  induction m with
  | nil => simp at hmem
  | cons p rest ih =>
    obtain ⟨k₁, vs₁⟩ := p
    rw [List.map_cons, List.nodup_cons] at hnd
    rcases List.mem_cons.mp hmem with h | h
    · rw [Prod.mk.injEq] at h
      obtain ⟨rfl, rfl⟩ := h
      simp [findGroup]
    · have hk : k ≠ k₁ := by
        rintro rfl
        exact hnd.1 (List.mem_map.mpr ⟨(k, vs), h, rfl⟩)
      simp [findGroup, hk, ih hnd.2 h]

theorem findGroup_eq_nil_or_mem (m : List (κ × List α)) (k : κ) :
    findGroup m k = [] ∨ (k, findGroup m k) ∈ m := by
  induction m with
  | nil => exact Or.inl rfl
  | cons p rest ih =>
    obtain ⟨k₁, vs₁⟩ := p
    by_cases h : k = k₁
    · subst h; right; simp [findGroup]
    · rcases ih with h' | h'
      · left; simpa [findGroup, h] using h'
      · right
        rw [findGroup, if_neg h]
        exact List.mem_cons_of_mem _ h'

end GroupingLemmas

section FoldLemmas

variable {α : Type} {κ : Type} [DecidableEq κ]

/-- One step of accumulating an optionally-keyed element into the map. -/
def insertOptStep (key : α → Option κ) (m : List (κ × List α)) (a : α) :
    List (κ × List α) :=
  match key a with
  | some k => groupInsert m k a
  | none => m

theorem findGroup_foldl_insertOpt (key : α → Option κ) (l : List α)
    (m : List (κ × List α)) (k : κ) :
    findGroup (l.foldl (insertOptStep key) m) k
      = findGroup m k ++ l.filter (fun a => decide (key a = some k)) := by
  induction l generalizing m with
  | nil => simp
  | cons a t ih =>
    rw [List.foldl_cons, ih]
    cases hk : key a with
    | none => simp [insertOptStep, hk]
    | some k₀ =>
      by_cases h : k₀ = k
      · subst h
        simp [insertOptStep, hk, findGroup_groupInsert, List.filter_cons]
      · simp [insertOptStep, hk, findGroup_groupInsert, Ne.symm h, h,
          List.filter_cons]

theorem keysNodup_foldl_insertOpt (key : α → Option κ) (l : List α)
    {m : List (κ × List α)} (h : (m.map Prod.fst).Nodup) :
    (((l.foldl (insertOptStep key) m)).map Prod.fst).Nodup := by
  induction l generalizing m with
  | nil => simpa
  | cons a t ih =>
    rw [List.foldl_cons]
    cases hk : key a with
    | none => exact ih (by simpa [insertOptStep, hk])
    | some k₀ => exact ih (by simpa [insertOptStep, hk] using keysNodup_groupInsert k₀ a h)

end FoldLemmas

theorem groupByKey_eq_foldl {α κ : Type} [DecidableEq κ] (key : α → κ) (l : List α) :
    groupByKey key l = l.foldl (insertOptStep (fun a => some (key a))) [] := rfl

theorem findGroup_groupByKey {α κ : Type} [DecidableEq κ] (key : α → κ)
    (l : List α) (k : κ) :
    findGroup (groupByKey key l) k = l.filter (fun a => decide (key a = k)) := by
  rw [groupByKey_eq_foldl, findGroup_foldl_insertOpt]
  rw [findGroup]
  rw [List.nil_append]
  refine List.filter_congr ?_
  intro a _
  simp

theorem keysNodup_groupByKey {α κ : Type} [DecidableEq κ] (key : α → κ) (l : List α) :
    ((groupByKey key l).map Prod.fst).Nodup := by
  rw [groupByKey_eq_foldl]
  exact keysNodup_foldl_insertOpt _ _ (by simp)

theorem hashGroupsOf_eq_foldl (d : List Nat → String)
    (buckets : List (Nat × List Entry)) :
    hashGroupsOf d buckets
      = (buckets.flatMap (fun g => g.2)).foldl (insertOptStep (hashFile d)) [] := by
  suffices h : ∀ (bs : List (Nat × List Entry)) (m : List (String × List Entry)),
      bs.foldl
        (fun m g =>
          (g.2.map (fun f => (f, hashFile d f))).foldl
            (fun m fh =>
              match fh.2 with
              | some h => groupInsert m h fh.1
              | none => m)
            m)
        m
      = (bs.flatMap (fun g => g.2)).foldl (insertOptStep (hashFile d)) m by
    exact h buckets []
  intro bs
  induction bs with
  | nil => intro m; simp
  | cons b t ih =>
    intro m
    rw [List.foldl_cons, ih, List.flatMap_cons, List.foldl_append]
    congr 1
    rw [List.foldl_map]
    refine congrArg (fun f => List.foldl f m b.2) ?_
    funext x y
    cases h : hashFile d y <;> simp [insertOptStep, h]

theorem findGroup_hashGroupsOf (d : List Nat → String)
    (buckets : List (Nat × List Entry)) (k : String) :
    findGroup (hashGroupsOf d buckets) k
      = (buckets.flatMap (fun g => g.2)).filter
          (fun a => decide (hashFile d a = some k)) := by
  rw [hashGroupsOf_eq_foldl, findGroup_foldl_insertOpt, findGroup, List.nil_append]

theorem keysNodup_hashGroupsOf (d : List Nat → String)
    (buckets : List (Nat × List Entry)) :
    ((hashGroupsOf d buckets).map Prod.fst).Nodup := by
  rw [hashGroupsOf_eq_foldl]
  exact keysNodup_foldl_insertOpt _ _ (by simp)

/-! ## Pipeline characterizations -/

theorem mem_sizeGroups_eq_filter {fs : FS} {min_size : Nat} {exts : Option String}
    {g : Nat × List Entry} (hg : g ∈ sizeGroupsOf fs min_size exts) :
    g.2 = (indexedFiles fs min_size exts).filter (fun e => decide (e.size = g.1)) := by
  have h := findGroup_eq_of_mem (keysNodup_groupByKey Entry.size _)
    (show (g.1, g.2) ∈ sizeGroupsOf fs min_size exts from hg)
  rw [← h]
  rw [findGroup_groupByKey]

theorem mem_potentialDupes {fs : FS} {min_size : Nat} {exts : Option String}
    {g : Nat × List Entry} :
    g ∈ potentialDupesOf fs min_size exts
      ↔ g ∈ sizeGroupsOf fs min_size exts ∧ 1 < g.2.length := by
  simp [potentialDupesOf, List.mem_filter]

theorem keysNodup_potentialDupes (fs : FS) (min_size : Nat) (exts : Option String) :
    ((potentialDupesOf fs min_size exts).map Prod.fst).Nodup := by
  have h : (potentialDupesOf fs min_size exts).Sublist (sizeGroupsOf fs min_size exts) :=
    List.filter_sublist _
  exact (keysNodup_groupByKey Entry.size _).sublist (h.map Prod.fst)

theorem mem_duplicates_eq_filter {fs : FS} {d : List Nat → String} {min_size : Nat}
    {exts : Option String} {g : String × List Entry}
    (hg : g ∈ duplicatesOf fs d min_size exts) :
    g.2 = (candidatesOf fs min_size exts).filter
        (fun e => decide (hashFile d e = some g.1)) := by
  have hmem : g ∈ hashGroupsOf d (potentialDupesOf fs min_size exts) :=
    List.mem_of_mem_filter hg
  have h := findGroup_eq_of_mem (keysNodup_hashGroupsOf d _)
    (show (g.1, g.2) ∈ hashGroupsOf d (potentialDupesOf fs min_size exts) from hmem)
  rw [← h, findGroup_hashGroupsOf, candidatesOf]

theorem mem_duplicates_len {fs : FS} {d : List Nat → String} {min_size : Nat}
    {exts : Option String} {g : String × List Entry}
    (hg : g ∈ duplicatesOf fs d min_size exts) : 1 < g.2.length := by
  have := List.mem_filter.mp hg
  simpa using this.2

theorem hash_of_mem_duplicates {fs : FS} {d : List Nat → String} {min_size : Nat}
    {exts : Option String} {g : String × List Entry}
    (hg : g ∈ duplicatesOf fs d min_size exts) {e : Entry} (he : e ∈ g.2) :
    hashFile d e = some g.1 := by
  rw [mem_duplicates_eq_filter hg] at he
  simpa using (List.mem_filter.mp he).2

theorem mem_candidates {fs : FS} {min_size : Nat} {exts : Option String} {e : Entry} :
    e ∈ candidatesOf fs min_size exts
      ↔ e ∈ indexedFiles fs min_size exts
        ∧ 1 < ((indexedFiles fs min_size exts).filter
              (fun a => decide (a.size = e.size))).length := by
  constructor
  · intro h
    obtain ⟨b, hb, hmem⟩ := List.mem_flatMap.mp h
    obtain ⟨hbs, hlen⟩ := mem_potentialDupes.mp hb
    have hfil := mem_sizeGroups_eq_filter hbs
    have hidx : e ∈ indexedFiles fs min_size exts := by
      have := hfil ▸ hmem
      exact (List.mem_filter.mp this).1
    have hkey : e.size = b.1 := by
      have := hfil ▸ hmem
      simpa using (List.mem_filter.mp this).2
    refine ⟨hidx, ?_⟩
    rw [hkey, ← hfil]
    exact hlen
  · rintro ⟨hidx, hlen⟩
    have hfind : findGroup (sizeGroupsOf fs min_size exts) e.size
        = (indexedFiles fs min_size exts).filter (fun a => decide (a.size = e.size)) := by
      rw [sizeGroupsOf, findGroup_groupByKey]
    rcases findGroup_eq_nil_or_mem (sizeGroupsOf fs min_size exts) e.size with h0 | hmem
    · rw [h0] at hfind
      rw [← hfind] at hlen
      simp at hlen
    · refine List.mem_flatMap.mpr ⟨(e.size, findGroup (sizeGroupsOf fs min_size exts) e.size), ?_, ?_⟩
      · refine mem_potentialDupes.mpr ⟨hmem, ?_⟩
        rw [hfind]
        exact hlen
      · rw [hfind]
        exact List.mem_filter.mpr ⟨hidx, by simp⟩

theorem indexed_nodup {fs : FS} (hwf : (fs.entries.map Entry.path).Nodup)
    (min_size : Nat) (exts : Option String) :
    (indexedFiles fs min_size exts).Nodup :=
  (List.Nodup.of_map _ hwf).filter _

theorem mem_indexed_statOk {fs : FS} {min_size : Nat} {exts : Option String}
    {e : Entry} (he : e ∈ indexedFiles fs min_size exts) : e.statOk = true := by
  have := (List.mem_filter.mp he).2
  simp only [Bool.and_eq_true, Bool.not_eq_true] at this
  exact this.1.1.2

/-- When every element satisfying `p` has key `k`, filtering the concatenation
of disjoint buckets by `p` only sees the bucket of `k`. -/
theorem flatMap_filter_single {α κ : Type} [DecidableEq κ]
    {buckets : List (κ × List α)} {key : α → κ} {p : α → Bool} {k : κ}
    (hb : ∀ b ∈ buckets, ∀ a ∈ b.2, key a = b.1)
    (hkeys : (buckets.map Prod.fst).Nodup)
    (hp : ∀ a, p a = true → key a = k) :
    (buckets.flatMap (fun b => b.2)).filter p = (findGroup buckets k).filter p := by
  induction buckets with
  | nil => simp [findGroup]
  | cons b t ih =>
    obtain ⟨k₁, vs⟩ := b
    rw [List.flatMap_cons, List.filter_append]
    rw [List.map_cons, List.nodup_cons] at hkeys
    by_cases hk : k = k₁
    · subst hk
      have hrest : (t.flatMap (fun b => b.2)).filter p = [] := by
        rw [List.filter_eq_nil_iff]
        intro a ha hpa
        obtain ⟨b', hb', ha'⟩ := List.mem_flatMap.mp ha
        have h1 : key a = b'.1 := hb b' (List.mem_cons_of_mem _ hb') a ha'
        have h2 : key a = k := hp a hpa
        exact hkeys.1 (List.mem_map.mpr ⟨b', hb', by rw [← h1, h2]⟩)
      rw [hrest, List.append_nil, findGroup, if_pos rfl]
    · have hself : vs.filter p = [] := by
        rw [List.filter_eq_nil_iff]
        intro a ha hpa
        have h1 : key a = k₁ := hb (k₁, vs) (List.mem_cons_self _ _) a ha
        exact hk ((hp a hpa).symm.trans h1)
      rw [hself, List.nil_append, findGroup, if_neg hk]
      exact ih (fun b hb' a ha => hb b (List.mem_cons_of_mem _ hb') a ha) hkeys.2

/-- Digest functions whose digests determine the byte length (no collision
between contents of different sizes). -/
def SizeFaithful (d : List Nat → String) : Prop :=
  ∀ c₁ c₂, d c₁ = d c₂ → c₁.length = c₂.length

/-- Under a size-faithful digest, every duplicate group is the traversal-order
restriction of one size bucket of the index: a double filter of
`indexedFiles`. -/
theorem dup_group_eq_double_filter {fs : FS} {d : List Nat → String}
    {min_size : Nat} {exts : Option String} {g : String × List Entry}
    (hd : SizeFaithful d) (hg : g ∈ duplicatesOf fs d min_size exts) :
    ∃ s, g.2 = ((indexedFiles fs min_size exts).filter
        (fun e => decide (e.size = s))).filter
        (fun e => decide (hashFile d e = some g.1)) := by
  have hfil := mem_duplicates_eq_filter hg
  have hlen := mem_duplicates_len hg
  obtain ⟨e₀, he₀⟩ : ∃ e₀, e₀ ∈ g.2 := by
    cases h : g.2 with
    | nil => rw [h] at hlen; simp at hlen
    | cons a t =>
      exact ⟨a, List.mem_cons_self _ _⟩
  refine ⟨e₀.size, ?_⟩
  have he₀h : hashFile d e₀ = some g.1 := hash_of_mem_duplicates hg he₀
  have hp : ∀ a : Entry, (decide (hashFile d a = some g.1) = true) → a.size = e₀.size := by
    intro a ha
    have ha' : hashFile d a = some g.1 := of_decide_eq_true ha
    unfold hashFile at ha' he₀h
    by_cases hr : a.readable
    · by_cases hr₀ : e₀.readable
      · rw [if_pos hr] at ha'
        rw [if_pos hr₀] at he₀h
        have : d a.content = d e₀.content := by
          rw [Option.some.injEq] at ha' he₀h
          rw [ha', he₀h]
        exact hd a.content e₀.content this
      · rw [if_neg hr₀] at he₀h
        exact absurd he₀h (by simp)
    · rw [if_neg hr] at ha'
      exact absurd ha' (by simp)
  have hb : ∀ b ∈ potentialDupesOf fs min_size exts, ∀ a ∈ b.2, a.size = b.1 := by
    intro b hb a ha
    have := mem_sizeGroups_eq_filter (mem_potentialDupes.mp hb).1
    rw [this] at ha
    simpa using (List.mem_filter.mp ha).2
  have hsingle := flatMap_filter_single hb
    (keysNodup_potentialDupes fs min_size exts) hp
  rw [candidatesOf] at hfil
  rw [hfil, hsingle]
  rcases findGroup_eq_nil_or_mem (potentialDupesOf fs min_size exts) e₀.size with h0 | hm
  · rw [h0] at hsingle
    rw [hfil, hsingle] at he₀
    simp at he₀
  · have h2 := mem_sizeGroups_eq_filter (mem_potentialDupes.mp hm).1
    exact congrArg (List.filter (fun a => decide (hashFile d a = some g.1))) h2

/-- Every duplicate group lists its members in traversal order: it is a
subsequence of the indexed-file sequence. -/
theorem dup_group_sublist {fs : FS} {d : List Nat → String}
    {min_size : Nat} {exts : Option String} {g : String × List Entry}
    (hd : SizeFaithful d) (hg : g ∈ duplicatesOf fs d min_size exts) :
    g.2.Sublist (indexedFiles fs min_size exts) := by
  obtain ⟨s, hs⟩ := dup_group_eq_double_filter hd hg
  rw [hs]
  exact (List.filter_sublist _).trans (List.filter_sublist _)

theorem dup_group_nodup {fs : FS} {d : List Nat → String}
    {min_size : Nat} {exts : Option String} {g : String × List Entry}
    (hwf : (fs.entries.map Entry.path).Nodup) (hd : SizeFaithful d)
    (hg : g ∈ duplicatesOf fs d min_size exts) : g.2.Nodup :=
  (indexed_nodup hwf min_size exts).sublist (dup_group_sublist hd hg)

/-! ## Deletion pass -/

theorem foldl_delStep (l : List Entry) (acc : DeleteSummary) :
    l.foldl delStep acc
      = { deleted_count := acc.deleted_count + (l.filter (fun f => f.removable)).length
        , freed_space := acc.freed_space + ((l.filter (fun f => f.statOk)).map Entry.size).sum
        , deletedFiles := acc.deletedFiles ++ l.filter (fun f => f.removable) } := by
  induction l generalizing acc with
  | nil => simp
  | cons f t ih =>
    rw [List.foldl_cons, ih]
    by_cases h1 : f.statOk <;> by_cases h2 : f.removable <;>
      simp [delStep, h1, h2, List.filter_cons, Nat.add_assoc, Nat.add_comm 1]

theorem deletePass_closed (dups : List (String × List Entry)) :
    deletePass dups
      = { deleted_count :=
            (dups.map (fun g => ((g.2.drop 1).filter (fun f => f.removable)).length)).sum
        , freed_space :=
            (dups.map (fun g =>
              (((g.2.drop 1).filter (fun f => f.statOk)).map Entry.size).sum)).sum
        , deletedFiles :=
            dups.flatMap (fun g => (g.2.drop 1).filter (fun f => f.removable)) } := by
  suffices h : ∀ (l : List (String × List Entry)) (acc : DeleteSummary),
      l.foldl (fun acc g => (g.2.drop 1).foldl delStep acc) acc
        = { deleted_count := acc.deleted_count
              + (l.map (fun g => ((g.2.drop 1).filter (fun f => f.removable)).length)).sum
          , freed_space := acc.freed_space
              + (l.map (fun g =>
                  (((g.2.drop 1).filter (fun f => f.statOk)).map Entry.size).sum)).sum
          , deletedFiles := acc.deletedFiles
              ++ l.flatMap (fun g => (g.2.drop 1).filter (fun f => f.removable)) } by
    rw [deletePass, h]
    simp
  intro l
  induction l with
  | nil => intro acc; simp
  | cons g t ih =>
    intro acc
    rw [List.foldl_cons, foldl_delStep, ih]
    simp [Nat.add_assoc]

theorem mem_deletePass_deletedFiles {dups : List (String × List Entry)} {f : Entry} :
    f ∈ (deletePass dups).deletedFiles
      ↔ ∃ g ∈ dups, f ∈ g.2.drop 1 ∧ f.removable = true := by
  rw [deletePass_closed]
  simp [List.mem_flatMap, List.mem_filter, and_assoc]

/-! ## Run-level projections -/

theorem runModel_indexed (fs : FS) (d : List Nat → String) (min_size : Nat)
    (exts : Option String) (output : Option String) (delete : Bool) (writeOk : Bool) :
    (runModel fs d min_size exts output delete writeOk).indexed
      = indexedFiles fs min_size exts := by
  unfold runModel
  by_cases h1 : (potentialDupesOf fs min_size exts).isEmpty
  · simp [h1]
  · by_cases h2 : (duplicatesOf fs d min_size exts).isEmpty
    · simp [h1, h2]
    · by_cases h3 : output.isSome && !writeOk
      · simp [h1, h2, h3]
      · simp [h1, h2, h3]

theorem runModel_deleteSummary_eq {fs : FS} {d : List Nat → String} {min_size : Nat}
    {exts : Option String} {output : Option String} {delete : Bool} {writeOk : Bool}
    {s : DeleteSummary}
    (h : (runModel fs d min_size exts output delete writeOk).deleteSummary = some s) :
    s = deletePass (duplicatesOf fs d min_size exts) := by
  unfold runModel at h
  by_cases h1 : (potentialDupesOf fs min_size exts).isEmpty
  · simp [h1] at h
  · by_cases h2 : (duplicatesOf fs d min_size exts).isEmpty
    · simp [h1, h2] at h
    · by_cases h3 : output.isSome && !writeOk
      · simp [h1, h2, h3] at h
      · cases delete with
        | false => simp [h1, h2, h3] at h
        | true =>
          simp [h1, h2, h3] at h
          exact h.symm

theorem runModel_empty_case {fs : FS} {d : List Nat → String} {min_size : Nat}
    {exts : Option String} (output : Option String) (delete : Bool) (writeOk : Bool)
    (h : duplicatesOf fs d min_size exts = []) :
    runModel fs d min_size exts output delete writeOk
      = { ok := true, indexed := indexedFiles fs min_size exts, dups := []
        , report := none, exported := false, deleteSummary := none } := by
  unfold runModel
  by_cases h1 : (potentialDupesOf fs min_size exts).isEmpty
  · simp [h1]
  · simp [h1, h]

/-- Under a size-faithful digest, two entries hashed to the same digest have
the same size. -/
theorem size_eq_of_hashFile_eq {d : List Nat → String} (hd : SizeFaithful d)
    {a b : Entry} {h : String}
    (ha : hashFile d a = some h) (hb : hashFile d b = some h) : a.size = b.size := by
  unfold hashFile at ha hb
  by_cases hra : a.readable
  · by_cases hrb : b.readable
    · rw [if_pos hra, Option.some.injEq] at ha
      rw [if_pos hrb, Option.some.injEq] at hb
      exact hd a.content b.content (ha.trans hb.symm)
    · rw [if_neg hrb] at hb
      exact absurd hb (by simp)
  · rw [if_neg hra] at ha
    exact absurd ha (by simp)

/-- Two duplicate groups with the same digest key are the same group. -/
theorem dup_groups_eq_of_key_eq {fs : FS} {d : List Nat → String} {min_size : Nat}
    {exts : Option String} {g g' : String × List Entry}
    (hg : g ∈ duplicatesOf fs d min_size exts)
    (hg' : g' ∈ duplicatesOf fs d min_size exts) (hk : g.1 = g'.1) : g = g' := by
  have hm : g ∈ hashGroupsOf d (potentialDupesOf fs min_size exts) :=
    List.mem_of_mem_filter hg
  have hm' : g' ∈ hashGroupsOf d (potentialDupesOf fs min_size exts) :=
    List.mem_of_mem_filter hg'
  have hnd := keysNodup_hashGroupsOf d (potentialDupesOf fs min_size exts)
  have h1 := findGroup_eq_of_mem hnd (show (g.1, g.2) ∈ _ from hm)
  have h2 := findGroup_eq_of_mem hnd (show (g'.1, g'.2) ∈ _ from hm')
  rw [hk] at h1
  have : g.2 = g'.2 := h1.symm.trans h2
  exact Prod.ext hk this

/-! ## Concrete instances -/

/-- A concrete size-faithful stand-in digest: `n` bytes map to the string of
`n` letters `a`. -/
def exDigest : List Nat → String := fun c => String.mk (List.replicate c.length 'a')

theorem exDigest_sizeFaithful : SizeFaithful exDigest := by
  intro c₁ c₂ h
  have h2 : List.replicate c₁.length 'a' = List.replicate c₂.length 'a' :=
    congrArg String.data h
  have h3 := congrArg List.length h2
  simpa using h3

/-- The `node_modules` directory entry. -/
def eDir : Entry := ⟨["node_modules"], false, true, true, [], false, false⟩

/-- A regular file inside `node_modules`, duplicating `b.js`. -/
def eNoise : Entry := ⟨["node_modules", "a.js"], true, false, true, [104, 105], true, true⟩

def eB : Entry := ⟨["b.js"], true, false, true, [104, 105], true, true⟩

/-- A file of unique size. -/
def eC : Entry := ⟨["c.js"], true, false, true, [1, 2, 3], true, true⟩

/-- A hidden file whose content duplicates `b.js`. -/
def eHidden : Entry := ⟨[".hidden.js"], true, false, true, [104, 105], true, true⟩

def exFS : FS := ⟨[eDir, eNoise, eB, eC, eHidden]⟩

/-- Three identical files; removal of `x1.bin` fails. -/
def f0 : Entry := ⟨["x0.bin"], true, false, true, [1, 2, 3, 4, 5], true, true⟩

def f1 : Entry := ⟨["x1.bin"], true, false, true, [1, 2, 3, 4, 5], true, false⟩

def f2 : Entry := ⟨["x2.bin"], true, false, true, [1, 2, 3, 4, 5], true, true⟩

def exFS3 : FS := ⟨[f0, f1, f2]⟩

/-- Three same-size files; `u1.dat` cannot be read by the hasher. -/
def u1 : Entry := ⟨["u1.dat"], true, false, true, [9, 9], false, true⟩

def u2 : Entry := ⟨["u2.dat"], true, false, true, [9, 9], true, true⟩

def u3 : Entry := ⟨["u3.dat"], true, false, true, [9, 9], true, true⟩

def exFS7 : FS := ⟨[u1, u2, u3]⟩

/-- Two files of distinct sizes: no size bucket has two members. -/
def exFS9 : FS := ⟨[eB, eC]⟩

/-- Members of a duplicate group were indexed by the traversal. -/
theorem mem_dup_group_indexed {fs : FS} {d : List Nat → String} {min_size : Nat}
    {exts : Option String} {g : String × List Entry}
    (hg : g ∈ duplicatesOf fs d min_size exts) {f : Entry} (hf : f ∈ g.2) :
    f ∈ indexedFiles fs min_size exts := by
  rw [mem_duplicates_eq_filter hg] at hf
  exact (mem_candidates.mp (List.mem_filter.mp hf).1).1

/-! ## Claims -/

/-- C5: a file whose byte size is unique among the files surviving the
traversal filter is never fed to the hashing stage: its singleton size
bucket is discarded before hashing. -/
theorem c5_singleton_exclusion (fs : FS) (min_size : Nat) (exts : Option String)
    (e : Entry) (he : e ∈ indexedFiles fs min_size exts)
    (hu : ((indexedFiles fs min_size exts).filter
        (fun a => decide (a.size = e.size))).length = 1) :
    e ∉ candidatesOf fs min_size exts := by
  intro hc
  have h := (mem_candidates.mp hc).2
  omega

theorem c5_singleton_exclusion_witness :
    eC ∈ indexedFiles exFS 1 none ∧ eC ∉ candidatesOf exFS 1 none :=
  ⟨by decide, c5_singleton_exclusion exFS 1 none eC (by decide) (by decide)⟩

/-- C9: when no size bucket or no digest group has two or more members, the
run succeeds immediately: nothing is exported and no deletion pass runs,
whatever the `output` and `delete` arguments were. -/
theorem c9_early_return (fs : FS) (d : List Nat → String) (min_size : Nat)
    (exts output : Option String) (delete writeOk : Bool)
    (h : potentialDupesOf fs min_size exts = [] ∨ duplicatesOf fs d min_size exts = []) :
    (runModel fs d min_size exts output delete writeOk).ok = true
    ∧ (runModel fs d min_size exts output delete writeOk).exported = false
    ∧ (runModel fs d min_size exts output delete writeOk).deleteSummary = none := by
  have hdup : duplicatesOf fs d min_size exts = [] := by
    rcases h with h | h
    · unfold duplicatesOf
      rw [h]
      rfl
    · exact h
  rw [runModel_empty_case output delete writeOk hdup]
  exact ⟨rfl, rfl, rfl⟩

theorem c9_early_return_witness :
    potentialDupesOf exFS9 1 none = []
    ∧ (runModel exFS9 exDigest 1 none (some "report.json") true true).ok = true
    ∧ (runModel exFS9 exDigest 1 none (some "report.json") true true).exported = false
    ∧ (runModel exFS9 exDigest 1 none (some "report.json") true true).deleteSummary
        = none :=
  ⟨by decide,
   (c9_early_return exFS9 exDigest 1 none (some "report.json") true true
      (Or.inl (by decide))).1,
   (c9_early_return exFS9 exDigest 1 none (some "report.json") true true
      (Or.inl (by decide))).2⟩

/-- C10: a file whose own name starts with a dot is never indexed by the
duplicates scan, whatever the command-line arguments: the command passes
`include_hidden = false` unconditionally and exposes no flag for it. -/
theorem c10_hidden_never_indexed (fs : FS) (d : List Nat → String) (min_size : Nat)
    (exts output : Option String) (delete writeOk : Bool) (e : Entry)
    (he : e ∈ (runModel fs d min_size exts output delete writeOk).indexed) :
    strStartsWith (fileName e.path) "." = false := by
  rw [runModel_indexed] at he
  have hp := (List.mem_filter.mp he).2
  simp only [Bool.and_eq_true] at hp
  have hss : (!should_skip e.path e.isDir false) = true := hp.1.1.1.2
  cases hbool : strStartsWith (fileName e.path) "."
  · rfl
  · exfalso
    unfold should_skip at hss
    simp [hbool] at hss

theorem c10_hidden_never_indexed_witness :
    eB ∈ (runModel exFS exDigest 1 none none false true).indexed
    ∧ strStartsWith (fileName eB.path) "." = false
    ∧ eHidden ∉ (runModel exFS exDigest 1 none none false true).indexed :=
  ⟨by decide,
   c10_hidden_never_indexed exFS exDigest 1 none none false true eB (by decide),
   by decide⟩

/-- C8: with no allow-list every file matches; with an allow-list a file
matches iff it has an extension equal, after trimming the list entries and
ASCII case-folding both sides, to one of the comma-separated entries; a file
without an extension never matches an allow-list. -/
theorem c8_extension_filter (p : FPath) (s : String) :
    matches_extensions p none = true
    ∧ (extOf (fileName p) = none → matches_extensions p (some s) = false)
    ∧ (matches_extensions p (some s) = true
        ↔ ∃ fe, extOf (fileName p) = some fe
            ∧ ∃ tok ∈ (splitOnChar ',' s.data).map trimChars,
                tok.map Char.toLower = fe.data.map Char.toLower) := by
  refine ⟨rfl, ?_, ?_⟩
  · intro h
    simp [matches_extensions, h]
  · cases hext : extOf (fileName p) with
    | none => simp [matches_extensions, hext]
    | some fe =>
      simp [matches_extensions, hext, List.any_eq_true]

theorem c8_extension_filter_witness :
    matches_extensions ["photo.JPG"] none = true
    ∧ matches_extensions ["photo.JPG"] (some "jpg, png") = true
    ∧ matches_extensions ["noext"] (some "jpg, png") = false :=
  ⟨(c8_extension_filter ["photo.JPG"] "jpg, png").1,
   (c8_extension_filter ["photo.JPG"] "jpg, png").2.2.mpr
     ⟨"JPG", by decide, ['j', 'p', 'g'], by decide, by decide⟩,
   (c8_extension_filter ["noext"] "jpg, png").2.1 (by decide)⟩

/-- C3, counterexample: with three identical 5-byte files where removal of
the second fails, the printed summary claims 10 bytes freed although the one
successful deletion freed only 5 bytes; no failure count exists in the
summary. -/
theorem c3_freed_space_counterexample :
    (runModel exFS3 exDigest 1 none none true true).deleteSummary
      = some { deleted_count := 1, freed_space := 10, deletedFiles := [f2] }
    ∧ ([f2].map Entry.size).sum = 5
    ∧ (10 : Nat) ≠ 5 := by decide

/-- C3, amended: a failed removal never stops the pass — every non-first
member of every group is attempted; the summary reports the count of files
whose removal succeeded, and a freed-space total that accumulates the size of
every attempted file whose metadata was readable, whether or not its removal
succeeded; no failure count is tracked. -/
theorem c3_deletion_summary (fs : FS) (d : List Nat → String) (min_size : Nat)
    (exts output : Option String) (writeOk : Bool) (s : DeleteSummary)
    (h : (runModel fs d min_size exts output true writeOk).deleteSummary = some s) :
    s.deleted_count = ((duplicatesOf fs d min_size exts).map
        (fun g => ((g.2.drop 1).filter (fun f => f.removable)).length)).sum
    ∧ s.freed_space = ((duplicatesOf fs d min_size exts).map
        (fun g => (((g.2.drop 1).filter (fun f => f.statOk)).map Entry.size).sum)).sum
    ∧ s.deletedFiles = (duplicatesOf fs d min_size exts).flatMap
        (fun g => (g.2.drop 1).filter (fun f => f.removable)) := by
  have hs := runModel_deleteSummary_eq h
  rw [hs, deletePass_closed]
  exact ⟨rfl, rfl, rfl⟩

theorem c3_deletion_summary_witness :
    (1 : Nat) = ((duplicatesOf exFS3 exDigest 1 none).map
        (fun g => ((g.2.drop 1).filter (fun f => f.removable)).length)).sum
    ∧ (10 : Nat) = ((duplicatesOf exFS3 exDigest 1 none).map
        (fun g => (((g.2.drop 1).filter (fun f => f.statOk)).map Entry.size).sum)).sum
    ∧ [f2] = (duplicatesOf exFS3 exDigest 1 none).flatMap
        (fun g => (g.2.drop 1).filter (fun f => f.removable)) :=
  c3_deletion_summary exFS3 exDigest 1 none none true
    { deleted_count := 1, freed_space := 10, deletedFiles := [f2] } (by decide)

/-- C7: a candidate whose hash computation fails is excluded from every hash
group — no partial digest is recorded — and every other candidate whose hash
succeeds still reaches the group of its digest. -/
theorem c7_hash_failure_isolated (fs : FS) (d : List Nat → String) (min_size : Nat)
    (exts : Option String) (e : Entry)
    (hc : e ∈ candidatesOf fs min_size exts) (hf : hashFile d e = none) :
    (∀ g ∈ hashGroupsOf d (potentialDupesOf fs min_size exts), e ∉ g.2)
    ∧ ∀ e₂ ∈ candidatesOf fs min_size exts, ∀ h, hashFile d e₂ = some h →
        e₂ ∈ findGroup (hashGroupsOf d (potentialDupesOf fs min_size exts)) h := by
  constructor
  · intro g hg hmem
    have hchar := findGroup_eq_of_mem (keysNodup_hashGroupsOf d _)
      (show (g.1, g.2) ∈ _ from hg)
    rw [← hchar, findGroup_hashGroupsOf] at hmem
    have h2 := (List.mem_filter.mp hmem).2
    rw [hf] at h2
    simp at h2
  · intro e₂ h2 h hh
    rw [findGroup_hashGroupsOf]
    exact List.mem_filter.mpr ⟨h2, by simp [hh]⟩

theorem c7_hash_failure_isolated_witness :
    u1 ∈ candidatesOf exFS7 1 none
    ∧ (∀ g ∈ hashGroupsOf exDigest (potentialDupesOf exFS7 1 none), u1 ∉ g.2)
    ∧ u2 ∈ findGroup (hashGroupsOf exDigest (potentialDupesOf exFS7 1 none)) "aa" :=
  ⟨by decide,
   (c7_hash_failure_isolated exFS7 exDigest 1 none u1 (by decide) (by decide)).1,
   (c7_hash_failure_isolated exFS7 exDigest 1 none u1 (by decide) (by decide)).2
     u2 (by decide) "aa" (by decide)⟩

/-- C4: under a digest that never collides across byte lengths, two reported
files with equal digest and equal size lie in the same group, and any two
members of one group have equal size and equal digest. -/
theorem c4_grouping_correctness (fs : FS) (d : List Nat → String) (min_size : Nat)
    (exts : Option String) (hd : SizeFaithful d) :
    (∀ g₁ ∈ duplicatesOf fs d min_size exts, ∀ g₂ ∈ duplicatesOf fs d min_size exts,
        ∀ a ∈ g₁.2, ∀ b ∈ g₂.2,
          hashFile d a = hashFile d b → a.size = b.size → g₁ = g₂)
    ∧ ∀ g ∈ duplicatesOf fs d min_size exts, ∀ a ∈ g.2, ∀ b ∈ g.2,
        a.size = b.size ∧ hashFile d a = hashFile d b := by
  constructor
  · intro g₁ hg₁ g₂ hg₂ a ha b hb hhash _
    have h1 := hash_of_mem_duplicates hg₁ ha
    have h2 := hash_of_mem_duplicates hg₂ hb
    have hsome : some g₁.1 = some g₂.1 := by rw [← h1, ← h2, hhash]
    exact dup_groups_eq_of_key_eq hg₁ hg₂ (Option.some.inj hsome)
  · intro g hg a ha b hb
    have h1 := hash_of_mem_duplicates hg ha
    have h2 := hash_of_mem_duplicates hg hb
    exact ⟨size_eq_of_hashFile_eq hd h1 h2, h1.trans h2.symm⟩

theorem c4_grouping_correctness_witness :
    eNoise.size = eB.size ∧ hashFile exDigest eNoise = hashFile exDigest eB :=
  (c4_grouping_correctness exFS exDigest 1 none exDigest_sizeFaithful).2
    ("aa", [eNoise, eB]) (by decide) eNoise (by decide) eB (by decide)

/-- C6: `total_duplicates` is the sum of member count minus one over the
groups, `wasted_space` is the exact sum of per-file size times member count
minus one, and (under a size-faithful digest) the per-file size used is the
size of every member of the group. -/
theorem c6_report_totals (fs : FS) (d : List Nat → String) (min_size : Nat)
    (exts : Option String) (hd : SizeFaithful d) :
    (mkReport (duplicatesOf fs d min_size exts)).total_duplicates
        = ((duplicatesOf fs d min_size exts).map (fun g => g.2.length - 1)).sum
    ∧ (mkReport (duplicatesOf fs d min_size exts)).wasted_space
        = ((duplicatesOf fs d min_size exts).map
            (fun g => groupSizeField g.2 * (g.2.length - 1))).sum
    ∧ ∀ g ∈ duplicatesOf fs d min_size exts, ∀ f ∈ g.2,
        f.size = groupSizeField g.2 := by
  refine ⟨rfl, ?_, ?_⟩
  · show ((duplicatesOf fs d min_size exts).map _).sum = _
    refine congrArg List.sum (List.map_congr_left ?_)
    intro g hg
    have hlen := mem_duplicates_len hg
    cases hcase : g.2 with
    | nil => rw [hcase] at hlen; simp at hlen
    | cons f₀ t =>
      have hf₀ : f₀ ∈ g.2 := by
        rw [hcase]
        exact List.mem_cons_self _ _
      have hstat : f₀.statOk = true :=
        mem_indexed_statOk (mem_dup_group_indexed hg hf₀)
      simp [groupSizeField, hstat]
  · intro g hg f hf
    have hlen := mem_duplicates_len hg
    cases hcase : g.2 with
    | nil => rw [hcase] at hlen; simp at hlen
    | cons f₀ t =>
      have hf₀ : f₀ ∈ g.2 := by
        rw [hcase]
        exact List.mem_cons_self _ _
      have hstat : f₀.statOk = true :=
        mem_indexed_statOk (mem_dup_group_indexed hg hf₀)
      have h1 := hash_of_mem_duplicates hg hf
      have h2 := hash_of_mem_duplicates hg hf₀
      have hsize : f.size = f₀.size := size_eq_of_hashFile_eq hd h1 h2
      simp [groupSizeField, hstat, hsize]

theorem c6_report_totals_witness :
    (mkReport (duplicatesOf exFS exDigest 1 none)).total_duplicates
        = ((duplicatesOf exFS exDigest 1 none).map (fun g => g.2.length - 1)).sum
    ∧ (mkReport (duplicatesOf exFS exDigest 1 none)).wasted_space
        = ((duplicatesOf exFS exDigest 1 none).map
            (fun g => groupSizeField g.2 * (g.2.length - 1))).sum
    ∧ eNoise.size = groupSizeField ("aa", [eNoise, eB]).2 :=
  ⟨(c6_report_totals exFS exDigest 1 none exDigest_sizeFaithful).1,
   (c6_report_totals exFS exDigest 1 none exDigest_sizeFaithful).2.1,
   (c6_report_totals exFS exDigest 1 none exDigest_sizeFaithful).2.2
     ("aa", [eNoise, eB]) (by decide) eNoise (by decide)⟩

/-- C1: under a size-faithful digest, every duplicate group lists its members
as a subsequence of the traversal order — so index 0 is the member discovered
first — and a requested deletion removes only members at index 1 and beyond,
never the member at index 0. -/
theorem c1_keep_invariant (fs : FS) (d : List Nat → String) (min_size : Nat)
    (exts output : Option String) (writeOk : Bool)
    (hwf : (fs.entries.map Entry.path).Nodup) (hd : SizeFaithful d) :
    (∀ g ∈ duplicatesOf fs d min_size exts,
        g.2.Sublist (indexedFiles fs min_size exts)
        ∧ ∀ s, (runModel fs d min_size exts output true writeOk).deleteSummary
              = some s →
            ∀ f₀, g.2.head? = some f₀ → f₀ ∉ s.deletedFiles)
    ∧ ∀ s, (runModel fs d min_size exts output true writeOk).deleteSummary
          = some s →
        ∀ f ∈ s.deletedFiles, ∃ g ∈ duplicatesOf fs d min_size exts,
          f ∈ g.2.drop 1 := by
  constructor
  · intro g hg
    refine ⟨dup_group_sublist hd hg, ?_⟩
    intro s hs f₀ hf₀ hdel
    rw [runModel_deleteSummary_eq hs] at hdel
    obtain ⟨g₂, hg₂, hdrop, _⟩ := mem_deletePass_deletedFiles.mp hdel
    have hf₀mem : f₀ ∈ g.2 := by
      cases hcase : g.2 with
      | nil => rw [hcase] at hf₀; simp at hf₀
      | cons a t =>
        rw [hcase] at hf₀
        simp only [List.head?_cons, Option.some.injEq] at hf₀
        rw [← hf₀]
        exact List.mem_cons_self _ _
    have hmem₂ : f₀ ∈ g₂.2 := List.drop_subset _ _ hdrop
    have hk : g.1 = g₂.1 := by
      have h1 := hash_of_mem_duplicates hg hf₀mem
      have h2 := hash_of_mem_duplicates hg₂ hmem₂
      exact Option.some.inj (h1.symm.trans h2)
    have heq : g = g₂ := dup_groups_eq_of_key_eq hg hg₂ hk
    rw [← heq] at hdrop
    have hnd := dup_group_nodup hwf hd hg
    cases hcase : g.2 with
    | nil => rw [hcase] at hf₀; simp at hf₀
    | cons a t =>
      rw [hcase] at hf₀ hdrop hnd
      simp only [List.head?_cons, Option.some.injEq] at hf₀
      simp only [List.drop_one, List.tail_cons] at hdrop
      rw [List.nodup_cons] at hnd
      rw [← hf₀] at hdrop
      exact hnd.1 hdrop
  · intro s hs f hf
    rw [runModel_deleteSummary_eq hs] at hf
    obtain ⟨g, hg, hdrop, _⟩ := mem_deletePass_deletedFiles.mp hf
    exact ⟨g, hg, hdrop⟩

theorem c1_keep_invariant_witness :
    ("aa", [eNoise, eB]).2.Sublist (indexedFiles exFS 1 none)
    ∧ eNoise ∉ (DeleteSummary.mk 1 2 [eB]).deletedFiles := by
  have h := c1_keep_invariant exFS exDigest 1 none none true (by decide)
    exDigest_sizeFaithful
  have hg : ("aa", [eNoise, eB]) ∈ duplicatesOf exFS exDigest 1 none := by decide
  have hs : (runModel exFS exDigest 1 none none true true).deleteSummary
      = some (DeleteSummary.mk 1 2 [eB]) := by decide
  exact ⟨(h.1 _ hg).1, (h.1 _ hg).2 _ hs eNoise rfl⟩

/-- C2 is violated by the code: `should_skip` blocks a noise directory only
when the queried path is itself that directory, and the duplicates walk never
prunes the directory subtree, so a regular file inside `node_modules` whose
content is duplicated elsewhere is indexed, hashed, and reported inside a
duplicate group. -/
theorem c2_noise_file_reaches_group :
    duplicatesOf exFS exDigest 1 none = [("aa", [eNoise, eB])]
    ∧ eNoise.path = ["node_modules", "a.js"]
    ∧ should_skip eDir.path eDir.isDir false = true
    ∧ should_skip eNoise.path eNoise.isDir false = false := by decide
